import Mathlib

/-!
# Verification of AiPinyin core algorithms

A shallow embedding, in Lean 4, of the core data model and algorithms of the
AiPinyin input method (Rust), together with proofs settling the specification
claims about them.  Rust machine integers are modelled as `Nat`/`Int`
(no overflow is reachable in the modelled code paths), `f32` scores as exact
rationals `Rat`, fallible calls as `Except`/`Option`, and `&str` values as
`String` or `List Char` (the modelled inputs are ASCII, where Rust's byte
indexing coincides with character indexing).
-/

namespace AiPinyin

/-- The VALID_SYLLABLES table of src/pinyin.rs, transcribed verbatim. -/
def validSyllables : List String := [
  "a", "o", "e", "ai", "ei", "ao", "ou", "an", "en", "ang", "eng", "er",
  "ba", "bo", "bi", "bu", "bai", "bei", "bao", "ban", "ben", "bang", "beng",
  "bie", "biao", "bian", "bin", "bing", "pa", "po", "pi", "pu", "pai", "pei",
  "pao", "pou", "pan", "pen", "pang", "peng", "pie", "piao", "pian", "pin",
  "ping", "ma", "mo", "me", "mi", "mu", "mai", "mei", "mao", "mou", "man",
  "men", "mang", "meng", "mie", "miao", "miu", "mian", "min", "ming", "fa",
  "fo", "fu", "fei", "fou", "fan", "fen", "fang", "feng", "da", "de", "di",
  "du", "dai", "dei", "dao", "dou", "dan", "den", "dang", "deng", "dong",
  "die", "diao", "diu", "dian", "ding", "duo", "dui", "duan", "dun", "ta",
  "te", "ti", "tu", "tai", "tao", "tou", "tan", "tang", "teng", "tong",
  "tie", "tiao", "tian", "ting", "tuo", "tui", "tuan", "tun", "na", "ne",
  "ni", "nu", "nv", "nai", "nei", "nao", "nou", "nan", "nen", "nang", "neng",
  "nong", "nie", "niao", "niu", "nian", "nin", "ning", "nuo", "nuan", "nve",
  "la", "le", "li", "lu", "lv", "lai", "lei", "lao", "lou", "lan", "lang",
  "leng", "long", "lie", "liao", "liu", "lian", "lin", "ling", "luo", "luan",
  "lun", "lve", "ga", "ge", "gu", "gai", "gei", "gao", "gou", "gan", "gen",
  "gang", "geng", "gong", "gua", "guai", "guan", "guang", "gui", "gun",
  "guo", "ka", "ke", "ku", "kai", "kei", "kao", "kou", "kan", "ken", "kang",
  "keng", "kong", "kua", "kuai", "kuan", "kuang", "kui", "kun", "kuo", "ha",
  "he", "hu", "hai", "hei", "hao", "hou", "han", "hen", "hang", "heng",
  "hong", "hua", "huai", "huan", "huang", "hui", "hun", "huo", "ji", "ju",
  "jia", "jie", "jiao", "jiu", "jian", "jin", "jiang", "jing", "jiong",
  "juan", "jun", "jue", "qi", "qu", "qia", "qie", "qiao", "qiu", "qian",
  "qin", "qiang", "qing", "qiong", "quan", "qun", "que", "xi", "xu", "xia",
  "xie", "xiao", "xiu", "xian", "xin", "xiang", "xing", "xiong", "xuan",
  "xun", "xue", "zha", "zhe", "zhi", "zhu", "zhai", "zhei", "zhao", "zhou",
  "zhan", "zhen", "zhang", "zheng", "zhong", "zhua", "zhuai", "zhuan",
  "zhuang", "zhui", "zhun", "zhuo", "cha", "che", "chi", "chu", "chai",
  "chao", "chou", "chan", "chen", "chang", "cheng", "chong", "chua", "chuai",
  "chuan", "chuang", "chui", "chun", "chuo", "sha", "she", "shi", "shu",
  "shai", "shei", "shao", "shou", "shan", "shen", "shang", "sheng", "shua",
  "shuai", "shuan", "shuang", "shui", "shun", "shuo", "re", "ri", "ru",
  "rao", "rou", "ran", "ren", "rang", "reng", "rong", "rua", "ruan", "rui",
  "run", "ruo", "za", "ze", "zi", "zu", "zai", "zei", "zao", "zou", "zan",
  "zen", "zang", "zeng", "zong", "zuo", "zui", "zuan", "zun", "ca", "ce",
  "ci", "cu", "cai", "cao", "cou", "can", "cen", "cang", "ceng", "cong",
  "cuo", "cui", "cuan", "cun", "sa", "se", "si", "su", "sai", "sao", "sou",
  "san", "sen", "sang", "seng", "song", "suo", "sui", "suan", "sun", "ya",
  "ye", "yi", "yo", "yu", "yao", "you", "yan", "yin", "yang", "ying", "yong",
  "yuan", "yun", "yue", "wa", "wo", "wu", "wai", "wei", "wan", "wen", "wang",
  "weng"]

/-- `is_valid_syllable` (src/pinyin.rs line 160). -/
def isValidSyllable (s : List Char) : Bool :=
  validSyllables.contains (String.mk s)

/-- The inner loop of `split_pinyin` (src/pinyin.rs lines 77-86): the largest
`try_len` from `min 6 remaining` down to 1 whose slice is a valid syllable,
or 0 when none matches. -/
def firstMatchLen (l : List Char) : Nat :=
  (((List.range (min 6 l.length)).reverse.map (fun n => n + 1)).find?
    (fun n => isValidSyllable (l.take n))).getD 0

/-- `split_pinyin` (src/pinyin.rs lines 69-97), greedy longest-match
segmentation.  The Rust `while` loop consumes at least one character per
iteration, so `l.length` iterations always suffice; the fuel argument makes
the recursion structural (and hence kernel-evaluable). -/
def splitPinyinGo (fuel : Nat) (l : List Char) : List (List Char) :=
  match fuel, l with
  | _, [] => []
  | 0, _ :: _ => []
  | fuel + 1, c :: rest =>
    if 0 < firstMatchLen (c :: rest) then
      (c :: rest).take (firstMatchLen (c :: rest)) ::
        splitPinyinGo fuel ((c :: rest).drop (firstMatchLen (c :: rest)))
    else
      [c] :: splitPinyinGo fuel rest

/-- `split_pinyin`: on no match, a one-letter token is emitted and the scan
advances by one. -/
def splitPinyin (l : List Char) : List (List Char) :=
  splitPinyinGo l.length l

/-- `split_pinyin_pub` (src/pinyin.rs lines 100-103). -/
def splitPinyinPub (input : List Char) : List (List Char) :=
  if input.all (fun c => c.toNat ≤ 127) then splitPinyin input else [input]

theorem firstMatchLen_le (l : List Char) : firstMatchLen l ≤ min 6 l.length := by
  unfold firstMatchLen
  cases h : (((List.range (min 6 l.length)).reverse.map (fun n => n + 1)).find?
      (fun n => isValidSyllable (l.take n))) with
  | none => simp
  | some n =>
    have hmem := List.mem_of_find?_eq_some h
    simp only [List.mem_map, List.mem_reverse, List.mem_range] at hmem
    obtain ⟨m, hm, rfl⟩ := hmem
    simp only [lt_min_iff] at hm
    simp only [Option.getD_some, le_min_iff]
    omega

theorem splitPinyinGo_nil (fuel : Nat) : splitPinyinGo fuel [] = [] := by
  cases fuel <;> rfl

theorem splitPinyinGo_congr :
    ∀ (fuel fuel' : Nat) (l : List Char), l.length ≤ fuel → l.length ≤ fuel' →
      splitPinyinGo fuel l = splitPinyinGo fuel' l := by
  intro fuel
  induction fuel with
  | zero =>
    intro fuel' l hl _
    have : l = [] := List.length_eq_zero.mp (Nat.le_zero.mp hl)
    subst this
    simp [splitPinyinGo_nil]
  | succ f ih =>
    intro fuel' l hl hl'
    cases l with
    | nil => simp [splitPinyinGo_nil]
    | cons c rest =>
      cases fuel' with
      | zero => simp at hl'
      | succ f' =>
        show splitPinyinGo (f + 1) (c :: rest) = splitPinyinGo (f' + 1) (c :: rest)
        rw [splitPinyinGo, splitPinyinGo]
        by_cases hpos : 0 < firstMatchLen (c :: rest)
        · rw [if_pos hpos, if_pos hpos]
          congr 1
          apply ih
          · simp only [List.length_drop, List.length_cons] at *
            omega
          · simp only [List.length_drop, List.length_cons] at *
            omega
        · rw [if_neg hpos, if_neg hpos]
          congr 1
          apply ih
          · simp only [List.length_cons] at hl
            omega
          · simp only [List.length_cons] at hl'
            omega

/-- Unfolding of `splitPinyin` on a non-empty buffer, mirroring one
iteration of the Rust loop. -/
theorem splitPinyin_cons (c : Char) (rest : List Char) :
    splitPinyin (c :: rest) =
      if 0 < firstMatchLen (c :: rest) then
        (c :: rest).take (firstMatchLen (c :: rest)) ::
          splitPinyin ((c :: rest).drop (firstMatchLen (c :: rest)))
      else
        [c] :: splitPinyin rest := by
  show splitPinyinGo (rest.length + 1) (c :: rest) = _
  rw [splitPinyinGo]
  by_cases hpos : 0 < firstMatchLen (c :: rest)
  · rw [if_pos hpos, if_pos hpos]
    congr 1
    apply splitPinyinGo_congr
    · simp only [List.length_drop, List.length_cons]
      omega
    · simp
  · rw [if_neg hpos, if_neg hpos]
    rfl

theorem splitPinyinGo_flatten :
    ∀ (fuel : Nat) (l : List Char), l.length ≤ fuel →
      (splitPinyinGo fuel l).flatten = l := by
  intro fuel
  induction fuel with
  | zero =>
    intro l hl
    have : l = [] := List.length_eq_zero.mp (Nat.le_zero.mp hl)
    subst this
    simp [splitPinyinGo_nil]
  | succ f ih =>
    intro l hl
    cases l with
    | nil => simp [splitPinyinGo_nil]
    | cons c rest =>
      rw [splitPinyinGo]
      by_cases hpos : 0 < firstMatchLen (c :: rest)
      · rw [if_pos hpos]
        rw [List.flatten_cons, ih _ (by
          simp only [List.length_drop, List.length_cons] at *
          omega)]
        exact List.take_append_drop _ _
      · rw [if_neg hpos]
        rw [List.flatten_cons, ih rest (by
          simp only [List.length_cons] at hl
          omega)]
        rfl

theorem splitPinyin_flatten (l : List Char) : (splitPinyin l).flatten = l :=
  splitPinyinGo_flatten l.length l le_rfl

theorem splitPinyinGo_ne_nil_mem :
    ∀ (fuel : Nat) (l : List Char), l.length ≤ fuel →
      ∀ s ∈ splitPinyinGo fuel l, s ≠ [] := by
  intro fuel
  induction fuel with
  | zero =>
    intro l hl
    have : l = [] := List.length_eq_zero.mp (Nat.le_zero.mp hl)
    subst this
    simp [splitPinyinGo_nil]
  | succ f ih =>
    intro l hl s hs
    cases l with
    | nil => simp [splitPinyinGo_nil] at hs
    | cons c rest =>
      rw [splitPinyinGo] at hs
      by_cases hpos : 0 < firstMatchLen (c :: rest)
      · rw [if_pos hpos] at hs
        rcases List.mem_cons.mp hs with heq | hmem
        · subst heq
          intro hcon
          have := congrArg List.length hcon
          simp only [List.length_take, List.length_cons, List.length_nil] at this
          omega
        · exact ih _ (by
            simp only [List.length_drop, List.length_cons] at *
            omega) s hmem
      · rw [if_neg hpos] at hs
        rcases List.mem_cons.mp hs with heq | hmem
        · subst heq; simp
        · exact ih rest (by
            simp only [List.length_cons] at hl
            omega) s hmem

theorem splitPinyin_ne_nil_mem (l : List Char) :
    ∀ s ∈ splitPinyin l, s ≠ [] :=
  splitPinyinGo_ne_nil_mem l.length l le_rfl

theorem splitPinyin_eq_nil_iff (l : List Char) : splitPinyin l = [] ↔ l = [] := by
  constructor
  · intro h
    have := splitPinyin_flatten l
    rw [h] at this
    simpa using this.symm
  · rintro rfl
    rfl

/-- C1: for every ASCII input, the concatenation of the syllable list
returned by the greedy segmenter equals the input; the empty input yields
the empty list; and at a position where no length from `min 6 remaining`
down to 1 matches a valid syllable, a one-letter token is emitted and the
scan advances by one character. -/
theorem claim_C1_segmentation_sound (l : List Char)
    (hascii : ∀ c ∈ l, c.toNat ≤ 127) :
    (splitPinyin l).flatten = l ∧
    splitPinyin ([] : List Char) = [] ∧
    (∀ c rest, l = c :: rest → firstMatchLen l = 0 →
      splitPinyin l = [c] :: splitPinyin rest) := by
  refine ⟨splitPinyin_flatten l, rfl, ?_⟩
  rintro c rest rfl hzero
  rw [splitPinyin_cons, if_neg (by omega)]

/-- Witness for C1 at the concrete ASCII input "xianq": the trailing letter
q matches no syllable and is emitted as a one-letter token. -/
theorem claim_C1_witness :
    (∀ c ∈ ("xianq".data), c.toNat ≤ 127) ∧
    (splitPinyin "xianq".data).flatten = "xianq".data := by
  refine ⟨by decide, ?_⟩
  exact (claim_C1_segmentation_sound "xianq".data (by decide)).1

-- ============================================================
-- PinyinEngine (src/pinyin.rs lines 613-669)
-- ============================================================

/-- `char::is_ascii_lowercase`. -/
def isAsciiLowercase (c : Char) : Bool :=
  'a' ≤ c && c ≤ 'z'

/-- `PinyinEngine` (src/pinyin.rs lines 613-616): the raw letter buffer and
the cached syllable segmentation. -/
structure PinyinEngine where
  raw : List Char
  syllables : List (List Char)
deriving DecidableEq, Repr

/-- `PinyinEngine::new` (dictionary initialisation is I/O and not part of
the engine state). -/
def PinyinEngine.new : PinyinEngine :=
  { raw := [], syllables := [] }

/-- `PinyinEngine::push` (src/pinyin.rs lines 624-629). -/
def PinyinEngine.push (e : PinyinEngine) (ch : Char) : PinyinEngine :=
  if isAsciiLowercase ch then
    { raw := e.raw ++ [ch], syllables := splitPinyin (e.raw ++ [ch]) }
  else
    e

/-- `PinyinEngine::pop` (src/pinyin.rs lines 631-638). -/
def PinyinEngine.pop (e : PinyinEngine) : PinyinEngine :=
  let raw := e.raw.dropLast
  { raw := raw
    syllables := if raw.isEmpty then [] else splitPinyin raw }

/-- `PinyinEngine::clear` (src/pinyin.rs lines 640-643). -/
def PinyinEngine.clear (_e : PinyinEngine) : PinyinEngine :=
  { raw := [], syllables := [] }

/-- `PinyinEngine::consume_syllables` (src/pinyin.rs lines 650-665). -/
def PinyinEngine.consumeSyllables (e : PinyinEngine) (n : Nat) : PinyinEngine :=
  if n = 0 then e
  else if n ≥ e.syllables.length then e.clear
  else
    let charsToConsume := ((e.syllables.take n).map List.length).sum
    if charsToConsume ≥ e.raw.length then e.clear
    else
      { raw := e.raw.drop charsToConsume
        syllables := splitPinyin (e.raw.drop charsToConsume) }

/-- `PinyinEngine::is_empty`. -/
def PinyinEngine.isEmpty (e : PinyinEngine) : Bool :=
  e.raw.isEmpty

/-- One engine operation, as driven by `handle_key_down` / `cb_process_key`. -/
inductive EngineOp where
  | push (c : Char)
  | pop
  | clear
  | consume (n : Nat)
deriving DecidableEq, Repr

def applyOp (e : PinyinEngine) : EngineOp → PinyinEngine
  | .push c => e.push c
  | .pop => e.pop
  | .clear => e.clear
  | .consume n => e.consumeSyllables n

def runOps (ops : List EngineOp) : PinyinEngine :=
  ops.foldl applyOp PinyinEngine.new

/-- The engine invariant: the raw buffer consists only of ASCII lowercase
letters and the cached syllable list is the greedy segmentation of it. -/
def engineInv (e : PinyinEngine) : Prop :=
  (∀ c ∈ e.raw, isAsciiLowercase c) ∧ e.syllables = splitPinyin e.raw

instance (e : PinyinEngine) : Decidable (engineInv e) := by
  unfold engineInv; infer_instance

theorem engineInv_new : engineInv PinyinEngine.new := by
  constructor
  · intro c hc; simp [PinyinEngine.new] at hc
  · rfl

theorem engineInv_applyOp (e : PinyinEngine) (op : EngineOp)
    (h : engineInv e) : engineInv (applyOp e op) := by
  obtain ⟨hlow, hsyl⟩ := h
  cases op with
  | push c =>
    by_cases hc : isAsciiLowercase c
    · refine ⟨?_, ?_⟩
      · intro x hx
        simp only [applyOp, PinyinEngine.push, if_pos hc, List.mem_append,
          List.mem_singleton] at hx
        rcases hx with hx | rfl
        · exact hlow x hx
        · exact hc
      · simp [applyOp, PinyinEngine.push, if_pos hc]
    · simpa [applyOp, PinyinEngine.push, if_neg hc] using ⟨hlow, hsyl⟩
  | pop =>
    refine ⟨?_, ?_⟩
    · intro x hx
      simp only [applyOp, PinyinEngine.pop] at hx
      exact hlow x (List.dropLast_subset _ hx)
    · simp only [applyOp, PinyinEngine.pop]
      by_cases hnil : e.raw.dropLast.isEmpty
      · simp only [if_pos hnil]
        rw [List.isEmpty_iff] at hnil
        rw [hnil]
        rfl
      · rw [if_neg hnil]
  | clear =>
    exact ⟨by intro x hx; simp [applyOp, PinyinEngine.clear] at hx,
      by simp only [applyOp, PinyinEngine.clear]; rfl⟩
  | consume n =>
    simp only [applyOp, PinyinEngine.consumeSyllables]
    split
    · exact ⟨hlow, hsyl⟩
    · split
      · exact ⟨by intro x hx; simp [PinyinEngine.clear] at hx,
          by simp [PinyinEngine.clear]; rfl⟩
      · split
        · exact ⟨by intro x hx; simp [PinyinEngine.clear] at hx,
            by simp [PinyinEngine.clear]; rfl⟩
        · exact ⟨fun x hx => hlow x (List.drop_subset _ _ hx), rfl⟩

theorem engineInv_runOps (ops : List EngineOp) : engineInv (runOps ops) := by
  unfold runOps
  induction ops using List.reverseRecOn with
  | nil => exact engineInv_new
  | append_singleton xs x ih =>
    rw [List.foldl_append]
    exact engineInv_applyOp _ _ ih

/-- C10: every sequence of engine operations maintains the invariant that
the raw buffer is all ASCII lowercase and the stored syllable list equals
`split_pinyin raw`; moreover `push` with a non-lowercase character leaves
the engine unchanged. -/
theorem claim_C10_engine_invariant :
    (∀ ops : List EngineOp, engineInv (runOps ops)) ∧
    (∀ (e : PinyinEngine) (c : Char), ¬ isAsciiLowercase c → e.push c = e) := by
  refine ⟨engineInv_runOps, ?_⟩
  intro e c hc
  simp [PinyinEngine.push, hc]

/-- Witness for C10: a concrete operation sequence containing a rejected
uppercase push. -/
theorem claim_C10_witness :
    engineInv (runOps [.push 'n', .push 'I', .push 'i']) ∧
    (PinyinEngine.new.push '1' = PinyinEngine.new) := by
  exact ⟨claim_C10_engine_invariant.1 _,
    claim_C10_engine_invariant.2 _ '1' (by decide)⟩

/-- After a commit-by-index, `cb_process_key` (src/main.rs lines 258-270)
hides the candidate window when the engine became empty and otherwise
refreshes the candidates: the refresh fires exactly when the remaining
buffer is non-empty. -/
def refreshAfterCommit (e : PinyinEngine) : Bool :=
  !e.isEmpty

theorem syllables_flatten_of_inv (e : PinyinEngine) (h : engineInv e) :
    e.syllables.flatten = e.raw := by
  rw [h.2]
  exact splitPinyin_flatten _

/-- C2: with syllables s1…sn cached for the buffer, committing a candidate
of k characters consumes exactly the first k syllables: the raw buffer
becomes the concatenation of s(k+1)…sn (empty when k ≥ n), and when
syllables remain the buffer stays live and triggers another refresh. -/
theorem claim_C2_commit_consumes_prefix (e : PinyinEngine) (k : Nat)
    (h : engineInv e) :
    (e.syllables.length ≤ k → (e.consumeSyllables k).raw = []) ∧
    (k < e.syllables.length →
      (e.consumeSyllables k).raw = (e.syllables.drop k).flatten ∧
      refreshAfterCommit (e.consumeSyllables k) = true) := by
  have hraw : e.syllables.flatten = e.raw := syllables_flatten_of_inv e h
  have hsplit : e.raw = (e.syllables.take k).flatten ++ (e.syllables.drop k).flatten := by
    rw [← List.flatten_append, List.take_append_drop, hraw]
  constructor
  · intro hk
    by_cases hk0 : k = 0
    · subst hk0
      have hlen0 : e.syllables.length = 0 := Nat.le_zero.mp hk
      have hnil : e.syllables = [] := List.length_eq_zero.mp hlen0
      have : e.raw = [] := by
        rw [← hraw, hnil]
        rfl
      simpa [PinyinEngine.consumeSyllables] using this
    · rw [PinyinEngine.consumeSyllables, if_neg hk0, if_pos hk]
      rfl
  · intro hk
    have hdrop_ne : (e.syllables.drop k).flatten ≠ [] := by
      have hlt : k < e.syllables.length := hk
      obtain ⟨s, rest, hcons⟩ : ∃ s rest, e.syllables.drop k = s :: rest := by
        cases hd : e.syllables.drop k with
        | nil =>
          exfalso
          have := List.length_drop k e.syllables
          rw [hd] at this
          simp at this
          omega
        | cons s rest => exact ⟨s, rest, rfl⟩
      have hs_mem : s ∈ e.syllables := by
        apply List.mem_of_mem_drop (n := k)
        rw [hcons]
        exact List.mem_cons_self _ _
      have hs_ne : s ≠ [] := by
        rw [h.2] at hs_mem
        exact splitPinyin_ne_nil_mem _ s hs_mem
      rw [hcons, List.flatten_cons]
      intro hcon
      exact hs_ne (List.append_eq_nil.mp hcon).1
    by_cases hk0 : k = 0
    · subst hk0
      have hne : e.raw ≠ [] := by
        rw [hsplit]
        simpa using hdrop_ne
      refine ⟨?_, ?_⟩
      · rw [PinyinEngine.consumeSyllables, if_pos rfl, List.drop_zero]
        exact hraw.symm
      · rw [PinyinEngine.consumeSyllables, if_pos rfl]
        simp only [refreshAfterCommit, PinyinEngine.isEmpty]
        simpa [List.isEmpty_iff] using hne
    · have hnotge : ¬ e.syllables.length ≤ k := by omega
      have hcc : ((e.syllables.take k).map List.length).sum =
          ((e.syllables.take k).flatten).length := by
        rw [List.length_flatten]
      have hlen : e.raw.length =
          ((e.syllables.take k).flatten).length + ((e.syllables.drop k).flatten).length := by
        rw [hsplit, List.length_append]
      have hdrop_pos : 0 < ((e.syllables.drop k).flatten).length :=
        List.length_pos.mpr hdrop_ne
      have hlt_raw : ((e.syllables.take k).map List.length).sum < e.raw.length := by
        omega
      rw [PinyinEngine.consumeSyllables, if_neg hk0, if_neg hnotge]
      simp only [if_neg (by omega : ¬ e.raw.length ≤ ((e.syllables.take k).map List.length).sum)]
      constructor
      · show e.raw.drop (((e.syllables.take k).map List.length).sum) = _
        rw [hcc, hsplit, List.drop_left]
      · show refreshAfterCommit _ = true
        simp only [refreshAfterCommit, PinyinEngine.isEmpty]
        rw [hcc, hsplit, List.drop_left]
        simpa [List.isEmpty_iff] using hdrop_ne

/-- The engine state of the source comment example: raw = "nengbuneng",
syllables = [neng, bu, neng] (used only by the C2 witness). -/
def engC2example : PinyinEngine :=
  { raw := "nengbuneng".data
    syllables := ["neng".data, "bu".data, "neng".data] }

/-- Witness for C2 at the example from the source comment: committing one
syllable of "nengbuneng" leaves "buneng" and keeps the buffer live. -/
theorem claim_C2_witness :
    engineInv engC2example ∧
    (engC2example.consumeSyllables 1).raw = "buneng".data ∧
    refreshAfterCommit (engC2example.consumeSyllables 1) = true := by
  have h := claim_C2_commit_consumes_prefix engC2example 1 (by decide)
  have h2 := h.2 (by decide)
  refine ⟨by decide, ?_, h2.2⟩
  rw [h2.1]
  decide

-- ============================================================
-- UserDict (src/user_dict.rs)
-- ============================================================

/-- Splits a character list at every occurrence of `sep`, keeping empty
pieces (Rust `str::split`). -/
def splitChar (sep : Char) (l : List Char) : List (List Char) :=
  match l with
  | [] => [[]]
  | c :: rest =>
    match splitChar sep rest with
    | [] => if c = sep then [[], []] else [[c]]
    | p :: ps => if c = sep then [] :: p :: ps else (c :: p) :: ps

/-- Rust `str::trim` (the parsed inputs are ASCII, where Rust's Unicode
whitespace trimming and ASCII whitespace trimming agree). -/
def trimAscii (l : List Char) : List Char :=
  ((l.dropWhile Char.isWhitespace).reverse.dropWhile Char.isWhitespace).reverse

/-- Rust `str::parse::<u32>` restricted to plain digit strings (the source
never feeds it a leading sign, and overflow does not occur for the counts
in scope). -/
def parseNat? (l : List Char) : Option Nat :=
  if l ≠ [] ∧ l.all Char.isDigit then
    some (l.foldl (fun acc c => acc * 10 + (c.toNat - 48)) 0)
  else
    none

/-- The user self-learning dictionary (src/user_dict.rs lines 16-23):
`(pinyin, word) → count`, modelled as an insertion-ordered association
list (the file path and dirty flag are I/O concerns and not modelled). -/
structure UserDict where
  entries : List ((String × String) × Nat)
deriving DecidableEq, Repr

/-- `HashMap::insert`: replace the value if the key is present, otherwise
add the binding. -/
def insertReplace (l : List ((String × String) × Nat)) (k : String × String)
    (v : Nat) : List ((String × String) × Nat) :=
  match l with
  | [] => [(k, v)]
  | (k0, v0) :: rest =>
    if k0 = k then (k0, v) :: rest else (k0, v0) :: insertReplace rest k v

/-- `entry(key).or_insert(0); *count += 1` (src/user_dict.rs lines 63-65). -/
def bumpCount (l : List ((String × String) × Nat)) (k : String × String) :
    List ((String × String) × Nat) :=
  match l with
  | [] => [(k, 1)]
  | (k0, v0) :: rest =>
    if k0 = k then (k0, v0 + 1) :: rest else (k0, v0) :: bumpCount rest k

def lookupCount (l : List ((String × String) × Nat)) (k : String × String) :
    Option Nat :=
  match l with
  | [] => none
  | (k0, v0) :: rest => if k0 = k then some v0 else lookupCount rest k

/-- `UserDict::learn` (src/user_dict.rs lines 60-72); the incremental file
save is I/O and not modelled. -/
def UserDict.learn (d : UserDict) (pinyin word : String) : UserDict :=
  if pinyin = "" ∨ word = "" then d
  else { entries := bumpCount d.entries (pinyin, word) }

/-- Modelled from the spec: `unlearn` is called from the keyboard hook
(src/main.rs line 350) but its definition is absent from the provided
src/user_dict.rs.  Spec: "unlearn(p, w): if the entry exists and count
reaches 0 after decrement, removes it; writes the full file."  The file
write is I/O and not modelled. -/
def decCount (l : List ((String × String) × Nat)) (k : String × String) :
    List ((String × String) × Nat) :=
  match l with
  | [] => []
  | (k0, v0) :: rest =>
    if k0 = k then
      (if v0 - 1 = 0 then rest else (k0, v0 - 1) :: rest)
    else
      (k0, v0) :: decCount rest k

/-- Modelled from the spec (see `decCount`): decrement the entry, removing
it when the count reaches 0. -/
def UserDict.unlearn (d : UserDict) (pinyin word : String) : UserDict :=
  { entries := decCount d.entries (pinyin, word) }

/-- `UserDict::load` (src/user_dict.rs lines 27-57) restricted to its pure
line-parsing part: lines are trimmed, empty and #-comment lines skipped,
and a line with at least three tab-separated fields inserts
(pinyin, word) → count with count defaulting to 1 when unparsable.
Rust `lines()` splits on a newline and strips a trailing carriage return;
the carriage return is removed by the subsequent trim here. -/
def loadUserDict (text : List Char) : UserDict :=
  { entries :=
      (splitChar (Char.ofNat 10) text).foldl (fun acc ln =>
        let line := trimAscii ln
        if line = [] ∨ line.head? = some '#' then acc
        else
          match splitChar (Char.ofNat 9) line with
          | p0 :: p1 :: p2 :: _ =>
            insertReplace acc (String.mk p0, String.mk p1) ((parseNat? p2).getD 1)
          | _ => acc) [] }

theorem decCount_bumpCount (l : List ((String × String) × Nat))
    (k : String × String) (h : lookupCount l k ≠ some 0) :
    decCount (bumpCount l k) k = l := by
  induction l with
  | nil => simp [bumpCount, decCount]
  | cons hd rest ih =>
    obtain ⟨k0, v0⟩ := hd
    by_cases hk : k0 = k
    · subst hk
      rw [lookupCount, if_pos rfl] at h
      have hv0 : v0 ≠ 0 := fun hc => h (by rw [hc])
      rw [bumpCount, if_pos rfl, decCount, if_pos rfl]
      have : v0 + 1 - 1 = v0 := by omega
      rw [this, if_neg hv0]
    · rw [lookupCount, if_neg hk] at h
      rw [bumpCount, if_neg hk, decCount, if_neg hk, ih h]

/-- C5 counterexample: the claim quantifies over every prior user-store
state, but a state holding a zero-count entry — loadable from a
user_dict.txt line with count field 0 — is not restored: learn raises the
count to 1 and the spec-modelled unlearn then deletes the entry. -/
theorem claim_C5_counterexample :
    loadUserDict "ni\t你\t0".data
        = { entries := [(("ni", "你"), 0)] } ∧
    UserDict.unlearn
        (UserDict.learn (loadUserDict "ni\t你\t0".data) "ni" "你") "ni" "你"
      ≠ loadUserDict "ni\t你\t0".data := by
  constructor
  · decide
  · decide

theorem lookupCount_eq_none_of_not_mem (l : List ((String × String) × Nat))
    (k : String × String) (h : k ∉ l.map Prod.fst) : lookupCount l k = none := by
  induction l with
  | nil => rfl
  | cons hd rest ih =>
    rw [List.map_cons, List.mem_cons] at h
    push_neg at h
    rw [lookupCount, if_neg (fun hc => h.1 hc.symm)]
    exact ih h.2

theorem lookupCount_decCount (l : List ((String × String) × Nat))
    (k : String × String) (hnd : (l.map Prod.fst).Nodup) (c : Nat)
    (hcl : lookupCount l k = some c) :
    lookupCount (decCount l k) k = if c - 1 = 0 then none else some (c - 1) := by
  induction l with
  | nil => simp [lookupCount] at hcl
  | cons hd rest ih =>
    obtain ⟨k0, v0⟩ := hd
    rw [List.map_cons, List.nodup_cons] at hnd
    by_cases hk : k0 = k
    · subst hk
      rw [lookupCount, if_pos rfl] at hcl
      injection hcl with hcl
      subst hcl
      rw [decCount, if_pos rfl]
      by_cases hz : v0 - 1 = 0
      · rw [if_pos hz, if_pos hz]
        exact lookupCount_eq_none_of_not_mem rest k0 hnd.1
      · rw [if_neg hz, if_neg hz, lookupCount, if_pos rfl]
    · rw [lookupCount, if_neg hk] at hcl
      rw [decCount, if_neg hk, lookupCount, if_neg hk]
      exact ih hnd.2 hcl

/-- C5 (amended): for non-empty p and w and any prior store whose keys are
unique (the HashMap invariant) and in which the (p, w) entry, when
present, has a non-zero count, learn(p,w) followed by unlearn(p,w)
restores the store exactly; unlearn decrements the entry and removes it
when the count reaches 0. -/
theorem claim_C5_learn_unlearn_roundtrip (d : UserDict) (p w : String)
    (hp : p ≠ "") (hw : w ≠ "")
    (hnd : (d.entries.map Prod.fst).Nodup)
    (hc : lookupCount d.entries (p, w) ≠ some 0) :
    (d.learn p w).unlearn p w = d ∧
    (∀ c, lookupCount d.entries (p, w) = some c → c ≠ 0 →
      lookupCount ((d.unlearn p w).entries) (p, w) =
        (if c - 1 = 0 then none else some (c - 1))) := by
  constructor
  · rw [UserDict.learn, if_neg (by tauto)]
    show UserDict.mk _ = d
    rw [decCount_bumpCount d.entries (p, w) hc]
  · intro c hcl _hc0
    rw [UserDict.unlearn]
    exact lookupCount_decCount d.entries (p, w) hnd c hcl

/-- Witness for C5 at a concrete store holding (ni, 你) with count 2. -/
theorem claim_C5_witness :
    ("ni" ≠ "" ∧ "你" ≠ "" ∧
      ((UserDict.mk [(("ni", "你"), 2)]).entries.map Prod.fst).Nodup ∧
      lookupCount (UserDict.mk [(("ni", "你"), 2)]).entries ("ni", "你") ≠ some 0) ∧
    ((UserDict.mk [(("ni", "你"), 2)]).learn "ni" "你").unlearn "ni" "你"
      = UserDict.mk [(("ni", "你"), 2)] :=
  ⟨⟨by decide, by decide, by decide, by decide⟩,
    (claim_C5_learn_unlearn_roundtrip (UserDict.mk [(("ni", "你"), 2)]) "ni" "你"
      (by decide) (by decide) (by decide) (by decide)).1⟩

-- ============================================================
-- Candidate merge policy (src/main.rs refresh_candidates)
-- ============================================================

/-- Model of Rust's stable `sort_by` with a comparator that orders by a key
descending (`|a, b| b.key.cmp(&a.key)`): equal keys keep their original
relative order.  A stable sort's output is uniquely determined by the
comparator, so any stable implementation is a faithful model; this one
inserts left to right, placing each element after all already-placed
elements whose key is not smaller. -/
def insertDescBy {α β : Type} [LinearOrder β] (key : α → β) (x : α) :
    List α → List α
  | [] => [x]
  | y :: ys => if key y < key x then x :: y :: ys else y :: insertDescBy key x ys

def sortDescBy {α β : Type} [LinearOrder β] (key : α → β) (l : List α) : List α :=
  l.foldl (fun acc x => insertDescBy key x acc) []

theorem insertDescBy_perm {α β : Type} [LinearOrder β] (key : α → β)
    (x : α) (l : List α) : (insertDescBy key x l).Perm (x :: l) := by
  induction l with
  | nil => rfl
  | cons y ys ih =>
    rw [insertDescBy]
    by_cases hlt : key y < key x
    · rw [if_pos hlt]
    · rw [if_neg hlt]
      exact (ih.cons y).trans (List.Perm.swap x y ys)

theorem insertDescBy_pairwise {α β : Type} [LinearOrder β] (key : α → β)
    (x : α) (l : List α)
    (h : l.Pairwise (fun a b => key b ≤ key a)) :
    (insertDescBy key x l).Pairwise (fun a b => key b ≤ key a) := by
  induction l with
  | nil => simp [insertDescBy]
  | cons y ys ih =>
    rw [List.pairwise_cons] at h
    rw [insertDescBy]
    by_cases hlt : key y < key x
    · rw [if_pos hlt]
      refine List.pairwise_cons.mpr ⟨?_, List.pairwise_cons.mpr h⟩
      intro b hb
      rcases List.mem_cons.mp hb with rfl | hb
      · exact le_of_lt hlt
      · exact le_trans (h.1 b hb) (le_of_lt hlt)
    · rw [if_neg hlt]
      refine List.pairwise_cons.mpr ⟨?_, ih h.2⟩
      intro b hb
      rcases List.mem_cons.mp ((insertDescBy_perm key x ys).mem_iff.mp hb) with rfl | hb2
      · exact le_of_not_lt hlt
      · exact h.1 b hb2

theorem sortDescBy_pairwise {α β : Type} [LinearOrder β] (key : α → β)
    (l : List α) :
    (sortDescBy key l).Pairwise (fun a b => key b ≤ key a) := by
  rw [sortDescBy]
  have : ∀ (acc : List α), acc.Pairwise (fun a b => key b ≤ key a) →
      (l.foldl (fun acc x => insertDescBy key x acc) acc).Pairwise
        (fun a b => key b ≤ key a) := by
    induction l with
    | nil => intro acc h; exact h
    | cons x xs ih =>
      intro acc h
      exact ih _ (insertDescBy_pairwise key x acc h)
  exact this [] (by simp)

/-- `UserDict::get_learned_words` (src/user_dict.rs lines 81-88): all words
learned under this pinyin, sorted by count descending. -/
def getLearnedWords (d : UserDict) (pinyin : String) : List (String × Nat) :=
  sortDescBy (fun x => x.2)
    ((d.entries.filter (fun e => e.1.1 = pinyin)).map (fun e => (e.1.2, e.2)))

/-- The merge step of `refresh_candidates` (src/main.rs lines 531-548 for
the synchronous path and lines 599-611 for the asynchronous path, which
are the same fold): user-learned words, then the AI list, then the
dictionary-after-plugins list, deduplicated through a seen-set that keeps
the first occurrence. -/
def mergeCandidates (learned : List (String × Nat)) (ai dict : List String) :
    List String :=
  let step := fun (acc : List String) (w : String) =>
    if w ∈ acc then acc else acc ++ [w]
  let r0 := learned.foldl (fun acc lw => step acc lw.1) []
  let r1 := ai.foldl step r0
  dict.foldl step r1

/-- The spec-side merge law: concatenate in priority order and keep only
the first occurrence of each word. -/
def dedupKeepFirst : List String → List String
  | [] => []
  | x :: xs => x :: dedupKeepFirst (xs.filter (fun y => y ≠ x))
termination_by l => l.length
decreasing_by
  have := List.length_filter_le (fun y => y ≠ x) xs
  simp only [List.length_cons]
  omega

theorem dedupKeepFirst_cons (x : String) (xs : List String) :
    dedupKeepFirst (x :: xs) = x :: dedupKeepFirst (xs.filter (fun y => y ≠ x)) := by
  rw [dedupKeepFirst.eq_def]

theorem foldl_step_eq (l acc : List String) :
    l.foldl (fun acc w => if w ∈ acc then acc else acc ++ [w]) acc
      = acc ++ dedupKeepFirst (l.filter (fun y => y ∉ acc)) := by
  induction l generalizing acc with
  | nil => simp [dedupKeepFirst]
  | cons x xs ih =>
    rw [List.foldl_cons]
    by_cases hx : x ∈ acc
    · rw [if_pos hx, ih acc, List.filter_cons]
      simp [hx]
    · rw [if_neg hx, ih (acc ++ [x]), List.filter_cons]
      simp only [hx, not_false_eq_true, decide_True, if_true]
      rw [dedupKeepFirst_cons]
      have hfil : xs.filter (fun y => decide (y ∉ acc ++ [x]))
          = (xs.filter (fun y => decide (y ∉ acc))).filter (fun y => decide (y ≠ x)) := by
        rw [List.filter_filter]
        apply List.filter_congr
        intro a _
        by_cases h1 : a ∈ acc <;> by_cases h2 : a = x <;> simp [h1, h2]
      rw [hfil]
      simp

theorem mergeCandidates_eq (learned : List (String × Nat)) (ai dict : List String) :
    mergeCandidates learned ai dict
      = dedupKeepFirst (learned.map Prod.fst ++ ai ++ dict) := by
  show dict.foldl (fun acc w => if w ∈ acc then acc else acc ++ [w])
      ((ai.foldl (fun acc w => if w ∈ acc then acc else acc ++ [w])
        (learned.foldl (fun acc lw => if lw.1 ∈ acc then acc else acc ++ [lw.1]) [])))
    = _
  have h0 : learned.foldl
        (fun acc lw => if lw.1 ∈ acc then acc else acc ++ [lw.1]) ([] : List String)
      = (learned.map Prod.fst).foldl
        (fun acc w => if w ∈ acc then acc else acc ++ [w]) [] := by
    rw [List.foldl_map]
  rw [h0, ← List.foldl_append, ← List.foldl_append, foldl_step_eq]
  simp

/-- C4: for every raw buffer, the merged candidate list follows the fixed
priority law — user-learned words for that raw ordered by count
descending, then the AI list (the same fold serves the synchronous and the
asynchronous path), then the dictionary-after-plugins list in its existing
order — deduplicated by exact word string keeping the first occurrence. -/
theorem claim_C4_merge_priority (d : UserDict) (raw : String)
    (ai dict : List String) :
    mergeCandidates (getLearnedWords d raw) ai dict
      = dedupKeepFirst ((getLearnedWords d raw).map Prod.fst ++ ai ++ dict) ∧
    (getLearnedWords d raw).Pairwise (fun a b => b.2 ≤ a.2) :=
  ⟨mergeCandidates_eq _ ai dict, sortDescBy_pairwise _ _⟩

-- ============================================================
-- Async generation counter (src/main.rs refresh_candidates, lines 567-629)
-- ============================================================

/-- The view-side state for asynchronous AI results: the `ai_generation`
counter (initially 0, src/main.rs line 165) plus the history of
generations whose merged result was applied to the view, in order. -/
structure GenState where
  counter : Nat
  pending : List Nat
  appliedLog : List Nat
deriving DecidableEq, Repr

/-- Events of the async protocol.  `dispatch` is lines 580-586: the counter
is incremented first and the spawned job captures the new value.
`complete g` is lines 597-623: the job finishes, and its merged result is
applied to the view only when the counter still equals the captured
generation (the check at line 597 and the application run on the same
callback with no intervening dispatch, so completion is one atomic
event). -/
inductive GenEvent where
  | dispatch
  | complete (g : Nat)
deriving DecidableEq, Repr

def genStep (s : GenState) : GenEvent → GenState
  | .dispatch =>
    { s with counter := s.counter + 1, pending := s.pending ++ [s.counter + 1] }
  | .complete g =>
    if s.counter = g then { s with appliedLog := s.appliedLog ++ [g] } else s

def genInit : GenState :=
  { counter := 0, pending := [], appliedLog := [] }

def genRun (evs : List GenEvent) : GenState :=
  evs.foldl genStep genInit

theorem genStep_counter_mono (s : GenState) (ev : GenEvent) :
    s.counter ≤ (genStep s ev).counter := by
  cases ev with
  | dispatch => simp [genStep]
  | complete g =>
    rw [genStep]
    split <;> simp

theorem genRun_applied_invariant (evs : List GenEvent) :
    ((genRun evs).appliedLog.Pairwise (· ≤ ·)) ∧
    (∀ g ∈ (genRun evs).appliedLog, g ≤ (genRun evs).counter) := by
  unfold genRun
  induction evs using List.reverseRecOn with
  | nil => simp [genInit]
  | append_singleton xs ev ih =>
    rw [List.foldl_append, List.foldl_cons, List.foldl_nil]
    set s := xs.foldl genStep genInit with hs
    have hmono : s.counter ≤ (genStep s ev).counter := genStep_counter_mono s ev
    cases ev with
    | dispatch =>
      refine ⟨by simpa [genStep] using ih.1, ?_⟩
      intro g hg
      simp only [genStep] at hg ⊢
      exact le_trans (ih.2 g hg) (by omega)
    | complete g =>
      rw [genStep]
      by_cases hc : s.counter = g
      · rw [if_pos hc]
        refine ⟨?_, ?_⟩
        · rw [List.pairwise_append]
          refine ⟨ih.1, by simp, ?_⟩
          intro a ha b hb
          rw [List.mem_singleton] at hb
          subst hb
          rw [← hc]
          exact ih.2 a ha
        · intro a ha
          simp only [List.mem_append, List.mem_singleton] at ha
          rcases ha with ha | rfl
          · exact ih.2 a ha
          · simp [← hc]
      · rw [if_neg hc]
        exact ih

/-- C3: starting from generation 0, every dispatch increments the counter
first and the spawned job captures the new value; a completion applies its
merged result only when the counter still equals the captured generation;
consequently the sequence of generations applied to the view is monotone —
once a result of generation g2 is applied, no result of generation
g1 < g2 is applied afterwards. -/
theorem claim_C3_generation_monotone (evs : List GenEvent) :
    (∀ s : GenState, (genStep s .dispatch).counter = s.counter + 1 ∧
      (genStep s .dispatch).pending = s.pending ++ [s.counter + 1]) ∧
    (∀ (s : GenState) (g : Nat), s.counter ≠ g →
      (genStep s (.complete g)).appliedLog = s.appliedLog) ∧
    (genRun evs).appliedLog.Pairwise (· ≤ ·) := by
  refine ⟨fun s => ⟨rfl, rfl⟩, fun s g hg => ?_, (genRun_applied_invariant evs).1⟩
  show (if s.counter = g then { s with appliedLog := s.appliedLog ++ [g] } else s).appliedLog
    = s.appliedLog
  rw [if_neg hg]

/-- Witness for C3: a concrete interleaving where the stale completion
(generation 1) arrives after generation 2 was applied and is discarded. -/
theorem claim_C3_witness :
    ((genStep genInit .dispatch).counter = 1) ∧
    ((genStep { counter := 2, pending := [1, 2], appliedLog := [2] }
        (.complete 1)).appliedLog = [2]) ∧
    (genRun [.dispatch, .complete 1, .dispatch, .complete 2,
        .complete 1]).appliedLog.Pairwise (· ≤ ·) := by
  have h := claim_C3_generation_monotone
    [.dispatch, .complete 1, .dispatch, .complete 2, .complete 1]
  refine ⟨by decide, ?_, h.2.2⟩
  exact h.2.1 { counter := 2, pending := [1, 2], appliedLog := [2] } 1 (by decide)

-- ============================================================
-- Dictionary (src/pinyin.rs lines 176-193 and 286-468)
-- ============================================================

/-- `sanitize_pinyin` (src/pinyin.rs lines 176-193): keep a-z, map ü and
its tone variants (U+00FC, U+01DC, U+01DA, U+01D8, U+01D6) to v, drop
every other character (non-ASCII garbage and ASCII non-letters alike);
`none` when nothing is left. -/
def sanitizePinyin (raw : List Char) : Option (List Char) :=
  let out := raw.foldl (fun acc ch =>
    if 'a' ≤ ch ∧ ch ≤ 'z' then acc ++ [ch]
    else if ch ∈ [Char.ofNat 0xfc, Char.ofNat 0x1dc, Char.ofNat 0x1da,
        Char.ofNat 0x1d8, Char.ofNat 0x1d6] then acc ++ ['v']
    else acc) []
  if out = [] then none else some out

/-- `make_abbreviation` (src/pinyin.rs lines 164-170): first letter of each
syllable.  The Rust code indexes byte 0 of each syllable, which exists
because `split_pinyin` only returns non-empty tokens; `headD` with an
arbitrary default models the same total function on that domain. -/
def makeAbbreviation (py : List Char) : List Char :=
  (splitPinyin py).map (fun s => s.headD ' ')

/-- `Candidate` (src/pinyin.rs lines 203-208). -/
structure Candidate where
  word : String
  weight : Nat
  pinyin : String
deriving DecidableEq, Repr

/-- `Dictionary` (src/pinyin.rs lines 286-296).  The three HashMap indices
are modelled as insertion-ordered association lists; `prefixIdx` and
`abbrevIdx` hold indices into `all` exactly as in the source. -/
structure Dictionary where
  exact : List (String × List Candidate)
  prefixIdx : List (String × List Nat)
  abbrevIdx : List (String × List Nat)
  all : List Candidate
deriving DecidableEq, Repr

/-- `map.entry(k).or_default().push(v)`. -/
def appendAt {α : Type} (m : List (String × List α)) (k : String) (v : α) :
    List (String × List α) :=
  match m with
  | [] => [(k, [v])]
  | (k0, vs) :: rest =>
    if k0 = k then (k0, vs ++ [v]) :: rest else (k0, vs) :: appendAt rest k v

def lookupAssoc {α : Type} (m : List (String × List α)) (k : String) : List α :=
  match m with
  | [] => []
  | (k0, vs) :: rest => if k0 = k then vs else lookupAssoc rest k

/-- `Dictionary::lookup` (src/pinyin.rs lines 364-366). -/
def Dictionary.lookup (d : Dictionary) (pinyin : String) : List Candidate :=
  lookupAssoc d.exact pinyin

/-- `str::splitn(3, sep)`: at most three pieces, the last one keeping any
further separators. -/
def splitn3 (sep : Char) (l : List Char) : List (List Char) :=
  match splitChar sep l with
  | [] => []
  | [a] => [a]
  | [a, b] => [a, b]
  | a :: b :: rest => [a, b, List.intercalate [sep] rest]

/-- The parsing pass of `Dictionary::from_text` (src/pinyin.rs lines
300-330): per line, trim; skip empty and # lines; split into at most three
comma fields; trim the pinyin and word fields; parse the weight with
default 50; skip empty pinyin or word; sanitize the pinyin, skipping the
entry when nothing is left; push the candidate into the exact group and
the flat vector. -/
def fromTextPass1 (text : List Char) :
    List (String × List Candidate) × List Candidate :=
  (splitChar (Char.ofNat 10) text).foldl (fun st ln =>
    let line := trimAscii ln
    if line = [] ∨ line.head? = some '#' then st
    else
      match splitn3 ',' line with
      | pyRaw :: wordRaw :: restParts =>
        let pinyinRaw := trimAscii pyRaw
        let word := trimAscii wordRaw
        let weight := match restParts with
          | [w] => (parseNat? (trimAscii w)).getD 50
          | _ => 50
        if pinyinRaw = [] ∨ word = [] then st
        else
          match sanitizePinyin pinyinRaw with
          | none => st
          | some py =>
            let cand : Candidate :=
              { word := String.mk word, weight := weight, pinyin := String.mk py }
            (appendAt st.1 (String.mk py) cand, st.2 ++ [cand])
      | _ => st) ([], [])

/-- The index-building pass of `Dictionary::from_text` (src/pinyin.rs lines
333-360): sort every exact group by weight descending, then for each
candidate register every pinyin prefix of length 1..min(len,6) and, when
it has at least two letters and differs from the full pinyin, the
first-letter abbreviation.  (The Rust code byte-slices the pinyin, which
equals character slicing because from_text keys are sanitized to a-z.) -/
def Dictionary.fromText (text : List Char) : Dictionary :=
  let st := fromTextPass1 text
  let exactSorted := st.1.map (fun kv =>
    (kv.1, sortDescBy (fun c => c.weight) kv.2))
  let prefixIdx := st.2.enum.foldl (fun m ic =>
    let py := ic.2.pinyin.data
    (List.range (min py.length 6)).foldl (fun m2 plen =>
      appendAt m2 (String.mk (py.take (plen + 1))) ic.1) m) []
  let abbrevIdx := st.2.enum.foldl (fun m ic =>
    let py := ic.2.pinyin.data
    let ab := makeAbbreviation py
    if 2 ≤ ab.length ∧ ab ≠ py then appendAt m (String.mk ab) ic.1 else m) []
  { exact := exactSorted, prefixIdx := prefixIdx, abbrevIdx := abbrevIdx,
    all := st.2 }

/-- Rust `str::to_lowercase` restricted to its effect on characters with a
plain one-character ASCII lowercase mapping; on every character appearing
in the inputs considered here (ASCII, ü) the two agree, and crucially
neither removes characters outside a-z. -/
def asciiLowercase (l : List Char) : List Char :=
  l.map (fun c => if 'A' ≤ c ∧ c ≤ 'Z' then Char.ofNat (c.toNat + 32) else c)

/-- `Dictionary::merge_text` (src/pinyin.rs lines 410-468): per line, trim
and skip comments; split into at most three comma fields; lowercase (not
sanitize!) the pinyin field; skip duplicates (same pinyin key and word);
append to the flat vector, the exact group, every prefix of length
1..min(len,6) and the abbreviation; finally re-sort every exact group by
weight descending.  Returns the dictionary and the number of added
entries.  (The Rust code byte-slices the pinyin for the prefix keys,
which panics off char boundaries for multi-byte keys; the inputs
considered here are ASCII, where byte and char slicing agree.) -/
def Dictionary.mergeText (d : Dictionary) (text : List Char) :
    Dictionary × Nat :=
  let st := (splitChar (Char.ofNat 10) text).foldl (fun (st : Dictionary × Nat) ln =>
    let line := trimAscii ln
    if line = [] ∨ line.head? = some '#' then st
    else
      match splitn3 ',' line with
      | pyRaw :: wordRaw :: restParts =>
        let rawPy := asciiLowercase (trimAscii pyRaw)
        let word := trimAscii wordRaw
        let weight := match restParts with
          | [w] => (parseNat? (trimAscii w)).getD 50
          | _ => 50
        if rawPy = [] ∨ word = [] then st
        else if ((st.1.lookup (String.mk rawPy)).any
            (fun c => c.word = String.mk word)) then st
        else
          let cand : Candidate :=
            { word := String.mk word, weight := weight, pinyin := String.mk rawPy }
          let idx := st.1.all.length
          let exact1 := appendAt st.1.exact (String.mk rawPy) cand
          let prefix1 := (List.range (min rawPy.length 6)).foldl (fun m2 plen =>
            appendAt m2 (String.mk (rawPy.take (plen + 1))) idx) st.1.prefixIdx
          let ab := makeAbbreviation rawPy
          let abbrev1 := if 2 ≤ ab.length ∧ ab ≠ rawPy then
              appendAt st.1.abbrevIdx (String.mk ab) idx
            else st.1.abbrevIdx
          ({ exact := exact1, prefixIdx := prefix1, abbrevIdx := abbrev1,
             all := st.1.all ++ [cand] }, st.2 + 1)
      | _ => st) (d, 0)
  ({ st.1 with
      exact := st.1.exact.map (fun kv =>
        (kv.1, sortDescBy (fun c => c.weight) kv.2)) }, st.2)

/-- A good dictionary key: non-empty and only a-z. -/
def goodKey (s : String) : Prop :=
  s.data ≠ [] ∧ ∀ c ∈ s.data, ('a' ≤ c ∧ c ≤ 'z')

instance (s : String) : Decidable (goodKey s) := by
  unfold goodKey; infer_instance

/-- The C9 invariant: every pinyin key stored in any index (exact groups,
prefix index, abbreviation index, and the pinyin fields of the flat
candidate vector and of the candidates inside the exact groups) is
non-empty and consists only of a-z. -/
def dictKeysSanitized (d : Dictionary) : Prop :=
  (∀ kv ∈ d.exact, goodKey kv.1 ∧ ∀ c ∈ kv.2, goodKey c.pinyin) ∧
  (∀ c ∈ d.all, goodKey c.pinyin) ∧
  (∀ kv ∈ d.prefixIdx, goodKey kv.1) ∧
  (∀ kv ∈ d.abbrevIdx, goodKey kv.1)

instance (d : Dictionary) : Decidable (dictKeysSanitized d) := by
  unfold dictKeysSanitized; infer_instance

theorem foldl_inv_mem {σ α : Type} (P : σ → Prop) (l : List α) (f : σ → α → σ)
    (hstep : ∀ s a, a ∈ l → P s → P (f s a)) :
    ∀ s, P s → P (l.foldl f s) := by
  induction l with
  | nil => intro s h; exact h
  | cons x xs ih =>
    intro s h
    rw [List.foldl_cons]
    exact ih (fun s a ha hp => hstep s a (List.mem_cons_of_mem x ha) hp) _
      (hstep s x (List.mem_cons_self x xs) h)

theorem sortDescBy_perm {α β : Type} [LinearOrder β] (key : α → β)
    (l : List α) : (sortDescBy key l).Perm l := by
  rw [sortDescBy]
  have h : ∀ (acc : List α),
      (l.foldl (fun acc x => insertDescBy key x acc) acc).Perm (acc ++ l) := by
    induction l with
    | nil => intro acc; simp
    | cons x xs ih =>
      intro acc
      rw [List.foldl_cons]
      refine (ih (insertDescBy key x acc)).trans ?_
      refine (List.Perm.append_right xs ((insertDescBy_perm key x acc))).trans ?_
      exact List.perm_middle.symm
  simpa using h []

theorem sanitizePinyin_good (raw py : List Char)
    (h : sanitizePinyin raw = some py) :
    py ≠ [] ∧ ∀ c ∈ py, ('a' ≤ c ∧ c ≤ 'z') := by
  have hfold : ∀ (l acc : List Char), (∀ c ∈ acc, ('a' ≤ c ∧ c ≤ 'z')) →
      ∀ c ∈ l.foldl (fun acc ch =>
        if 'a' ≤ ch ∧ ch ≤ 'z' then acc ++ [ch]
        else if ch ∈ [Char.ofNat 0xfc, Char.ofNat 0x1dc, Char.ofNat 0x1da,
            Char.ofNat 0x1d8, Char.ofNat 0x1d6] then acc ++ ['v']
        else acc) acc, ('a' ≤ c ∧ c ≤ 'z') := by
    intro l
    induction l with
    | nil => intro acc hacc; exact hacc
    | cons ch rest ih =>
      intro acc hacc
      rw [List.foldl_cons]
      by_cases h1 : 'a' ≤ ch ∧ ch ≤ 'z'
      · rw [if_pos h1]
        refine ih _ ?_
        intro c hc
        rcases List.mem_append.mp hc with hc | hc
        · exact hacc c hc
        · rw [List.mem_singleton] at hc
          subst hc
          exact h1
      · rw [if_neg h1]
        by_cases h2 : ch ∈ [Char.ofNat 0xfc, Char.ofNat 0x1dc, Char.ofNat 0x1da,
            Char.ofNat 0x1d8, Char.ofNat 0x1d6]
        · rw [if_pos h2]
          refine ih _ ?_
          intro c hc
          rcases List.mem_append.mp hc with hc | hc
          · exact hacc c hc
          · rw [List.mem_singleton] at hc
            subst hc
            exact ⟨by decide, by decide⟩
        · rw [if_neg h2]
          exact ih _ hacc
  rw [sanitizePinyin] at h
  by_cases hemp : (raw.foldl (fun acc ch =>
      if 'a' ≤ ch ∧ ch ≤ 'z' then acc ++ [ch]
      else if ch ∈ [Char.ofNat 0xfc, Char.ofNat 0x1dc, Char.ofNat 0x1da,
          Char.ofNat 0x1d8, Char.ofNat 0x1d6] then acc ++ ['v']
      else acc) []) = []
  · rw [if_pos hemp] at h
    exact absurd h (by simp)
  · rw [if_neg hemp] at h
    injection h with h
    subst h
    exact ⟨hemp, hfold raw [] (by simp)⟩

theorem splitPinyin_mem_chars (l : List Char) (s : List Char)
    (hs : s ∈ splitPinyin l) (c : Char) (hc : c ∈ s) : c ∈ l := by
  rw [← splitPinyin_flatten l]
  exact List.mem_flatten.mpr ⟨s, hs, hc⟩

theorem makeAbbreviation_mem_chars (py : List Char) (c : Char)
    (hc : c ∈ makeAbbreviation py) : c ∈ py := by
  rw [makeAbbreviation] at hc
  rcases List.mem_map.mp hc with ⟨s, hs, rfl⟩
  have hne : s ≠ [] := splitPinyin_ne_nil_mem py s hs
  cases s with
  | nil => exact absurd rfl hne
  | cons a rest =>
    exact splitPinyin_mem_chars py _ hs _ (by simp [List.headD])

theorem appendAt_forall {α : Type} (Q : String → Prop) (R : α → Prop)
    (m : List (String × List α)) (k : String) (v : α)
    (hm : ∀ kv ∈ m, Q kv.1 ∧ ∀ x ∈ kv.2, R x) (hk : Q k) (hv : R v) :
    ∀ kv ∈ appendAt m k v, Q kv.1 ∧ ∀ x ∈ kv.2, R x := by
  induction m with
  | nil =>
    intro kv hkv
    rw [appendAt, List.mem_singleton] at hkv
    subst hkv
    refine ⟨hk, ?_⟩
    intro x hx
    rw [List.mem_singleton] at hx
    subst hx
    exact hv
  | cons hd rest ih =>
    obtain ⟨k0, vs⟩ := hd
    intro kv hkv
    rw [appendAt] at hkv
    by_cases hk0 : k0 = k
    · rw [if_pos hk0] at hkv
      rcases List.mem_cons.mp hkv with rfl | hkv
      · have h0 := hm (k0, vs) (List.mem_cons_self _ _)
        refine ⟨h0.1, ?_⟩
        intro x hx
        rcases List.mem_append.mp hx with hx | hx
        · exact h0.2 x hx
        · rw [List.mem_singleton] at hx
          subst hx
          exact hv
      · exact hm kv (List.mem_cons_of_mem _ hkv)
    · rw [if_neg hk0] at hkv
      rcases List.mem_cons.mp hkv with rfl | hkv
      · exact hm _ (List.mem_cons_self _ _)
      · exact ih (fun kv h => hm kv (List.mem_cons_of_mem _ h)) kv hkv

theorem fromTextPass1_good (text : List Char) :
    (∀ kv ∈ (fromTextPass1 text).1, goodKey kv.1 ∧ ∀ c ∈ kv.2, goodKey c.pinyin) ∧
    (∀ c ∈ (fromTextPass1 text).2, goodKey c.pinyin) := by
  rw [fromTextPass1]
  refine foldl_inv_mem
    (fun (st : List (String × List Candidate) × List Candidate) =>
      (∀ kv ∈ st.1, goodKey kv.1 ∧ ∀ c ∈ kv.2, goodKey c.pinyin) ∧
      (∀ c ∈ st.2, goodKey c.pinyin))
    _ _ ?_ _ (by simp)
  intro st ln _ hst
  dsimp only
  split
  · exact hst
  · split
    · next pyRaw wordRaw restParts heq =>
      split
      · exact hst
      · split
        · exact hst
        · next py hsan =>
          have hgood : goodKey (String.mk py) := by
            have := sanitizePinyin_good _ py hsan
            exact ⟨by simpa using this.1, by simpa using this.2⟩
          refine ⟨?_, ?_⟩
          · refine appendAt_forall goodKey (fun c => goodKey c.pinyin) st.1 _ _
              hst.1 hgood ?_
            exact hgood
          · intro c hc
            rcases List.mem_append.mp hc with hc | hc
            · exact hst.2 c hc
            · rw [List.mem_singleton] at hc
              subst hc
              exact hgood
    · exact hst

theorem appendAt_keys {α : Type} (m : List (String × List α)) (k : String)
    (v : α) (hm : ∀ kv ∈ m, goodKey kv.1) (hk : goodKey k) :
    ∀ kv ∈ appendAt m k v, goodKey kv.1 :=
  fun kv hkv =>
    (appendAt_forall goodKey (fun _ => True) m k v
      (fun kv h => ⟨hm kv h, fun _ _ => trivial⟩) hk trivial kv hkv).1

theorem fromText_prefix_abbrev_good (all0 : List Candidate)
    (hall : ∀ c ∈ all0, goodKey c.pinyin) :
    (∀ kv ∈ all0.enum.foldl (fun m ic =>
        (List.range (min ic.2.pinyin.data.length 6)).foldl (fun m2 plen =>
          appendAt m2 (String.mk (ic.2.pinyin.data.take (plen + 1))) ic.1) m)
        ([] : List (String × List Nat)), goodKey kv.1) ∧
    (∀ kv ∈ all0.enum.foldl (fun m ic =>
        if 2 ≤ (makeAbbreviation ic.2.pinyin.data).length ∧
            makeAbbreviation ic.2.pinyin.data ≠ ic.2.pinyin.data then
          appendAt m (String.mk (makeAbbreviation ic.2.pinyin.data)) ic.1
        else m)
        ([] : List (String × List Nat)), goodKey kv.1) := by
  constructor
  · refine foldl_inv_mem
      (fun (m : List (String × List Nat)) => ∀ kv ∈ m, goodKey kv.1)
      all0.enum _ ?_ [] (by simp)
    intro m ic hic hm
    have hpy : goodKey ic.2.pinyin := hall ic.2 (List.snd_mem_of_mem_enum hic)
    refine foldl_inv_mem
      (fun (m2 : List (String × List Nat)) => ∀ kv ∈ m2, goodKey kv.1)
      _ _ ?_ m hm
    intro m2 plen hplen hm2
    have hlt : plen < min ic.2.pinyin.data.length 6 := List.mem_range.mp hplen
    refine appendAt_keys m2 _ _ hm2 ?_
    constructor
    · show (ic.2.pinyin.data.take (plen + 1)) ≠ []
      intro hcon
      have := congrArg List.length hcon
      simp only [List.length_take, List.length_nil] at this
      omega
    · intro c hc
      exact hpy.2 c (List.mem_of_mem_take hc)
  · refine foldl_inv_mem
      (fun (m : List (String × List Nat)) => ∀ kv ∈ m, goodKey kv.1)
      all0.enum _ ?_ [] (by simp)
    intro m ic hic hm
    have hpy : goodKey ic.2.pinyin := hall ic.2 (List.snd_mem_of_mem_enum hic)
    split
    · next hcond =>
      refine appendAt_keys m _ _ hm ?_
      constructor
      · show (makeAbbreviation ic.2.pinyin.data) ≠ []
        intro hcon
        rw [hcon] at hcond
        simp at hcond
      · intro c hc
        exact hpy.2 c (makeAbbreviation_mem_chars _ c hc)
    · exact hm

/-- C9 (amended): after `from_text`, every pinyin key stored in any index
of the dictionary (exact, prefix, abbreviation, and the pinyin fields of
the flat candidate vector) is non-empty and consists only of a-z — ü and
its tone variants mapped to v, other characters dropped, entries empty
after sanitization discarded.  `merge_text`, however, only lowercases its
pinyin field and does not sanitize it, so it does not preserve the
invariant (see the counterexample). -/
theorem claim_C9_fromText_sanitized (text : List Char) :
    dictKeysSanitized (Dictionary.fromText text) := by
  have hp1 := fromTextPass1_good text
  have hidx := fromText_prefix_abbrev_good (fromTextPass1 text).2 hp1.2
  rw [Dictionary.fromText]
  refine ⟨?_, hp1.2, hidx.1, hidx.2⟩
  intro kv hkv
  rcases List.mem_map.mp hkv with ⟨kv0, hkv0, rfl⟩
  refine ⟨(hp1.1 kv0 hkv0).1, ?_⟩
  intro c hc
  exact (hp1.1 kv0 hkv0).2 c ((sortDescBy_perm (fun c => c.weight) kv0.2).mem_iff.mp hc)

/-- C9 counterexample: the claim asserts the a-z key invariant is
preserved by every `merge_text` call, but `merge_text` only lowercases:
merging the line "shi4,是,100" into an empty dictionary stores the key
"shi4", whose digit 4 is outside a-z. -/
theorem claim_C9_counterexample :
    dictKeysSanitized (Dictionary.fromText "".data) ∧
    ¬ dictKeysSanitized
        ((Dictionary.fromText "".data).mergeText "shi4,是,100".data).1 := by
  constructor
  · decide
  · decide

-- ============================================================
-- AI engine (src/ai_engine.rs)
-- ============================================================

/-- A model session: `run_inference` (src/ai_engine.rs lines 276-294) maps
input token ids to a flat logits vector or an error.  f32 logits are
modelled as exact rationals. -/
abbrev Sess : Type := List Int → Except String (List Rat)

/-- The vocabulary index fields used by the modelled paths
(src/ai_engine.rs lines 62-83). -/
structure VocabIndex where
  pinyin2charIds : List (String × List Int)
  char2id : List (String × Int)
  id2char : List (Int × String)
  clsId : Int

def assocFind? {κ α : Type} [DecidableEq κ] (m : List (κ × α)) (k : κ) :
    Option α :=
  match m with
  | [] => none
  | (k0, v) :: rest => if k0 = k then some v else assocFind? rest k

/-- `build_context` (src/ai_engine.rs lines 299-311): [CLS] followed by the
ids of the last 50 context characters that are in the vocabulary. -/
def buildContext (v : VocabIndex) (context : List Char) : List Int :=
  v.clsId :: ((context.reverse.take 50).reverse.filterMap
    (fun ch => assocFind? v.char2id (String.mk [ch])))

/-- Indexing a logits slice at `id as usize` (the ids in scope are
non-negative; a negative id would wrap to a huge index in Rust and miss
the bounds check, returning None just like here). -/
def logitAt (logits : List Rat) (id : Int) : Option Rat :=
  if 0 ≤ id then logits.get? id.toNat else none

/-- `get_top_k_constrained` (src/ai_engine.rs lines 519-550) over a logits
slice. -/
def getTopKConstrained (logits : List Rat) (v : VocabIndex) (pinyin : String)
    (topK : Nat) : List (Int × String) :=
  match assocFind? v.pinyin2charIds pinyin with
  | some candidateIds =>
    let scored := candidateIds.filterMap (fun id =>
      (logitAt logits id).map (fun s => (id, s)))
    let sorted := sortDescBy (fun x => x.2) scored
    (sorted.take topK).filterMap (fun x =>
      (assocFind? v.id2char x.1).map (fun ch => (x.1, ch)))
  | none =>
    let scored := (logits.enum.filter (fun p => decide (4 ≤ p.1))).map
      (fun p => ((p.1 : Int), p.2))
    let sorted := sortDescBy (fun x => x.2) scored
    (sorted.take topK).filterMap (fun x =>
      (assocFind? v.id2char x.1).map (fun ch => (x.1, ch)))

/-- One beam: (text, ids, cumulative score). -/
abbrev Beam : Type := String × List Int × Rat

/-- The loop body of `run_predict_greedy` (src/ai_engine.rs lines 476-506):
expand every beam by the constrained top-k for this syllable (a failing
inference aborts the whole search via `?`), keep the global best
`beamWidth` beams, and stop early when no beam could be extended. -/
def greedyLoop (sess : Sess) (v : VocabIndex) (vocabSize beamWidth : Nat) :
    List (List Char) → List Beam → Except String (List Beam)
  | [], beams => .ok beams
  | syl :: rest, beams => do
    let nextBeams ← beams.foldlM (fun (acc : List Beam) b => do
      let (text, ids, score) := b
      let logits ← sess ids
      let offset := (ids.length - 1) * vocabSize
      if logits.length < offset + vocabSize then
        pure acc
      else
        let topChars := getTopKConstrained ((logits.drop offset).take vocabSize)
          v (String.mk syl) beamWidth
        pure (acc ++ topChars.map (fun ic =>
          let charScore := (logitAt logits ((offset : Int) + ic.1)).getD (-50)
          (text ++ ic.2, ids ++ [ic.1], score + charScore))) ) []
    if nextBeams = [] then .ok beams
    else
      greedyLoop sess v vocabSize beamWidth rest
        ((sortDescBy (fun (b : Beam) => b.2.2) nextBeams).take beamWidth)

/-- `run_predict_greedy` (src/ai_engine.rs lines 461-515). -/
def runPredictGreedy (sess : Sess) (v : VocabIndex) (syllables : List (List Char))
    (ctxPrefix : List Int) (vocabSize beamWidth : Nat) :
    Except String (List String) := do
  if syllables = [] then
    pure []
  else
    let beams ← greedyLoop sess v vocabSize beamWidth syllables
      [("", ctxPrefix, 0)]
    pure ((beams.map (fun (b : Beam) => b.1)).foldl (fun acc s =>
      if s ≠ "" ∧ s ∉ acc then acc ++ [s] else acc) [])

-- ------------------------------------------------------------
-- Word-graph segmentation (src/ai_engine.rs lines 895-1016)
-- ------------------------------------------------------------

/-- `jieba_word_score` (src/ai_engine.rs lines 1001-1016), with the jieba
library abstracted by the predicate `isWord w` = "jieba cuts w into the
single segment w". -/
def jiebaWordScore (isWord : String → Bool) (word : String) : Int :=
  let charCount := word.data.length
  if charCount = 1 then 0
  else if isWord word then (min (charCount : Int) 4) * 750
  else 0

/-- One entry of `word_at` in `word_graph_segment`:
(end position, word, combined score, syllable count). -/
structure GraphChoice where
  endPos : Nat
  word : String
  score : Int
  sylCount : Nat
deriving DecidableEq, Repr

/-- The candidate-table pass of `word_graph_segment` (src/ai_engine.rs
lines 910-944): at each position, for every window length 2..min(6,n-i)
whose concatenated pinyin hits the dictionary keep the top-5 entries by
weight with score weight + jieba boost, then the top-5 single-syllable
entries with score weight + jieba boost / 4. -/
def buildWordAt (d : Dictionary) (isWord : String → Bool)
    (syllables : List (List Char)) : List (List GraphChoice) :=
  let n := syllables.length
  (List.range n).map (fun i =>
    let multi := (List.range' 2 (min 6 (n - i) - 1)).flatMap (fun length =>
      let j := i + length
      let pyKey := String.mk ((syllables.drop i).take length).flatten
      let entries := d.lookup pyKey
      if entries = [] then []
      else
        ((sortDescBy (fun c => c.weight) entries).take 5).map (fun e =>
          { endPos := j, word := e.word,
            score := (e.weight : Int) + jiebaWordScore isWord e.word,
            sylCount := length }))
    let single :=
      let pyKey := String.mk (syllables.getD i [])
      let entries := d.lookup pyKey
      if entries = [] then []
      else
        ((sortDescBy (fun c => c.weight) entries).take 5).map (fun e =>
          { endPos := i + 1, word := e.word,
            score := (e.weight : Int) + jiebaWordScore isWord e.word / 4,
            sylCount := 1 })
    multi ++ single)

/-- The DP adjustment of src/ai_engine.rs lines 959-964: multi-syllable
choices get + sylCount·1000. -/
def dpEffectiveScore (ch : GraphChoice) : Int :=
  if 2 ≤ ch.sylCount then ch.score + (ch.sylCount : Int) * 1000 else ch.score

/-- The candidates generated at position i of the DP (src/ai_engine.rs
lines 951-971), `suffix` holding best[i+1] .. best[n]. -/
def dpCandidatesAt (choices : List GraphChoice)
    (suffix : List (Option (List (Int × List String)))) (i : Nat) :
    List (Int × List String) :=
  choices.flatMap (fun ch =>
    match suffix.getD (ch.endPos - i - 1) none with
    | none => []
    | some rest =>
      (rest.take 3).map (fun rp => (dpEffectiveScore ch + rp.1, ch.word :: rp.2)))

/-- Deduplication of DP candidates by concatenated path
(src/ai_engine.rs lines 976-980). -/
def dedupByConcat (l : List (Int × List String)) : List (Int × List String) :=
  (l.foldl (fun (acc : List (Int × List String) × List String) cp =>
    let key := String.join cp.2
    if key ∈ acc.2 then acc else (acc.1 ++ [cp], acc.2 ++ [key])) ([], [])).1

/-- The DP pass of `word_graph_segment` (src/ai_engine.rs lines 947-984),
building [best 0, …, best n] from the right. -/
def wordGraphBest (wordAt : List (List GraphChoice)) :
    List (Option (List (Int × List String))) :=
  (List.range wordAt.length).reverse.foldl (fun suffix i =>
    let choices := wordAt.getD i []
    let candidates := dpCandidatesAt choices suffix i
    (if candidates = [] then none
     else some ((dedupByConcat
        (sortDescBy (fun (c : Int × List String) => c.1) candidates)).take 15))
      :: suffix)
    [some [(0, [])]]

/-- `word_graph_segment` (src/ai_engine.rs lines 895-995).  The global
dictionary (`get_dict`) and jieba are passed explicitly. -/
def wordGraphSegment (dict : Option Dictionary) (isWord : String → Bool)
    (syllables : List (List Char)) (topK : Nat) : List String :=
  if syllables.length = 0 then []
  else
    match dict with
    | none => []
    | some d =>
      let wordAt := buildWordAt d isWord syllables
      match (wordGraphBest wordAt).headD none with
      | some paths => (paths.take topK).map (fun p => String.join p.2)
      | none => []

-- ------------------------------------------------------------
-- run_rerank (src/ai_engine.rs lines 559-647)
-- ------------------------------------------------------------

/-- The ai_scores extraction of `run_rerank` (src/ai_engine.rs lines
583-591): the logit of each candidate's first character at the last
context position, -50 when missing. -/
def aiScoresOf (v : VocabIndex) (logits : List Rat) (offset : Nat)
    (candidates : List String) : List Rat :=
  candidates.map (fun cand =>
    ((cand.data.head?.bind (fun ch => assocFind? v.char2id (String.mk [ch]))).bind
      (fun cid => logitAt logits ((offset : Int) + cid))).getD (-50))

/-- The dynamic AI weight of `run_rerank` (src/ai_engine.rs lines
596-605). -/
def aiWeightOf (ctxLen : Nat) : Rat :=
  if ctxLen = 0 then 50
  else if ctxLen ≤ 2 then 60
  else if ctxLen ≤ 4 then 70
  else 80

/-- `run_rerank` (src/ai_engine.rs lines 559-647).  The Rust min/max folds
start from ±infinity; on the non-empty candidate list reachable here they
equal the plain fold from the head used below. -/
def runRerank (sess : Sess) (v : VocabIndex) (pinyin : String)
    (candidates : List String) (context : List Char) :
    Except String (List String) :=
  let syllables := splitPinyinPub pinyin.data
  if syllables = [] ∨ candidates = [] then .ok candidates
  else
    let vocabSize := 21128
    let n := candidates.length
    let inputIds := buildContext v context
    match sess inputIds with
    | .error e => .error e
    | .ok logits =>
      let offset := (inputIds.length - 1) * vocabSize
      let aiScores := aiScoresOf v logits offset candidates
      let aiWeight := aiWeightOf (inputIds.length - 1)
      let dictWeight := 100 - aiWeight
      let aiMin := match aiScores with
        | [] => 0
        | h :: t => t.foldl min h
      let aiMax := match aiScores with
        | [] => 0
        | h :: t => t.foldl max h
      let aiRange := max (aiMax - aiMin) (1 / 10)
      let scored := (candidates.zip aiScores).enum.map
        (fun (p : Nat × (String × Rat)) =>
        let idx : Nat := p.1
        let cand := p.2.1
        let charCount := cand.data.length
        let dictNorm : Rat := 100 - (idx : Rat) * (100 / (max n 1 : Nat))
        let aiNorm := (p.2.2 - aiMin) / aiRange * 100
        let lenBonus : Rat :=
          if charCount = syllables.length ∧ 2 ≤ charCount then 20
          else if charCount = syllables.length then 5
          else 0
        ((idx, dictNorm * dictWeight / 100 + aiNorm * aiWeight / 100 + lenBonus) :
          Nat × Rat))
      let sorted := sortDescBy (fun (x : Nat × Rat) => x.2) scored
      .ok (sorted.filterMap (fun x => candidates.get? x.1))

-- ------------------------------------------------------------
-- run_predict (src/ai_engine.rs lines 316-455)
-- ------------------------------------------------------------

/-- `run_predict` (src/ai_engine.rs lines 316-455).  When `syllables` is
empty the source enters the first-letter branch, whose beam sub-case
requires `pinyin.len() ≥ 2`; but the segmenter returns no syllables only
for the empty input (`splitPinyinPub_eq_nil_iff`), so that branch always
falls through to Ok([]) and is modelled as such.  The global dictionary
used by the word graph and the jieba predicate are passed explicitly. -/
def runPredict (sess : Sess) (v : VocabIndex) (dict : Option Dictionary)
    (isWord : String → Bool) (pinyin : String) (topK : Nat)
    (context : List Char) (dictWords : List String) :
    Except String (List String) :=
  let syllables := splitPinyinPub pinyin.data
  if syllables = [] then .ok []
  else
    let vocabSize := 21128
    let ctxPrefix := buildContext v context
    if syllables.length = 1 then
      match sess ctxPrefix with
      | .error e => .error e
      | .ok logits =>
        let offset := (ctxPrefix.length - 1) * vocabSize
        if logits.length < offset + vocabSize then .error "logits too short"
        else
          let chars := getTopKConstrained ((logits.drop offset).take vocabSize)
            v (String.mk (syllables.headD [])) topK
          .ok (chars.map (fun x => x.2))
    else
      let beamResults :=
        (runPredictGreedy sess v syllables ctxPrefix vocabSize topK).toOption.getD []
      let graphCands := wordGraphSegment dict isWord syllables 5
      let targetLen := syllables.length
      let dictMatches :=
        (dictWords.filter (fun w => w.data.length = targetLen)).take 3
      let step := fun (acc : List String) (w : String) =>
        if w ∈ acc then acc else acc ++ [w]
      let result := graphCands.foldl step
        (dictMatches.foldl step (beamResults.foldl step []))
      if result ≠ [] then .ok (result.take topK) else .ok []

-- ------------------------------------------------------------
-- AIPredictor (src/ai_engine.rs lines 169-269)
-- ------------------------------------------------------------

/-- `AIState` (src/ai_engine.rs lines 169-172). -/
inductive AIState where
  | ready (sess : Sess)
  | unavailable (msg : String)

/-- `AIPredictor` (src/ai_engine.rs lines 174-179); the model path is I/O
and not modelled. -/
structure AIPredictor where
  state : AIState
  vocab : Option VocabIndex
  aiFirst : Bool

/-- `AIPredictor::is_available` (src/ai_engine.rs lines 229-231). -/
def AIPredictor.isAvailable (p : AIPredictor) : Bool :=
  (match p.state with | .ready _ => true | .unavailable _ => false) &&
    p.vocab.isSome

/-- `AIPredictor::predict` (src/ai_engine.rs lines 236-251): no session or
no vocab → empty; a failing `run_predict` → empty. -/
def AIPredictor.predict (p : AIPredictor) (dict : Option Dictionary)
    (isWord : String → Bool) (pinyin : String) (context : List Char)
    (topK : Nat) (dictWords : List String) : List String :=
  match p.state with
  | .unavailable _ => []
  | .ready sess =>
    match p.vocab with
    | none => []
    | some v =>
      match runPredict sess v dict isWord pinyin topK context dictWords with
      | .ok c => c
      | .error _ => []

/-- `AIPredictor::rerank` (src/ai_engine.rs lines 254-268): no session or
no vocab → input unchanged; a failing `run_rerank` → input unchanged. -/
def AIPredictor.rerank (p : AIPredictor) (pinyin : String)
    (candidates : List String) (context : List Char) : List String :=
  match p.state with
  | .unavailable _ => candidates
  | .ready sess =>
    match p.vocab with
    | none => candidates
    | some v =>
      match runRerank sess v pinyin candidates context with
      | .ok r => r
      | .error _ => candidates

/-- Minimal vocabulary used by the C6 counterexample and witness. -/
def vC6 : VocabIndex :=
  { pinyin2charIds := [], char2id := [], id2char := [], clsId := 101 }

/-- C6 counterexample: with a session whose every call fails, `predict` on
the two-syllable input "nihao" still returns the dictionary word 你好 —
the failed beam search is swallowed by unwrap_or_default and the
dictionary matches of the target length are appended — so "any single
call fails ⇒ predict returns an empty list" is false. -/
theorem claim_C6_counterexample :
    (AIPredictor.mk (.ready (fun _ => .error "fail")) (some vC6) true).predict
        none (fun _ => false) "nihao" [] 9 ["你好"] = ["你好"] ∧
    (["你好"] : List String) ≠ [] := by
  exact ⟨rfl, by decide⟩

/-- C6 (amended): rerank returns its input unchanged whenever the session
is absent, the vocabulary is missing, or the single model call fails; and
predict returns the empty list whenever the session is absent, the
vocabulary is missing, or the single model call of its single-syllable
path fails.  (In the 2+-syllable path a failed beam search is swallowed
and dictionary-based candidates may still be returned — see the
counterexample.) -/
theorem claim_C6_failure_policy (msg : String) (vb : Option VocabIndex)
    (af : Bool) (sess : Sess) (v : VocabIndex) (dict : Option Dictionary)
    (isWord : String → Bool) (pinyin : String) (context : List Char)
    (topK : Nat) (dictWords candidates : List String) (e : String) :
    ((AIPredictor.mk (.unavailable msg) vb af).rerank pinyin candidates context
      = candidates) ∧
    ((AIPredictor.mk (.unavailable msg) vb af).predict dict isWord pinyin
      context topK dictWords = []) ∧
    ((AIPredictor.mk (.ready sess) none af).rerank pinyin candidates context
      = candidates) ∧
    ((AIPredictor.mk (.ready sess) none af).predict dict isWord pinyin
      context topK dictWords = []) ∧
    (sess (buildContext v context) = .error e →
      (AIPredictor.mk (.ready sess) (some v) af).rerank pinyin candidates
        context = candidates) ∧
    (sess (buildContext v context) = .error e →
      (splitPinyinPub pinyin.data).length = 1 →
      (AIPredictor.mk (.ready sess) (some v) af).predict dict isWord pinyin
        context topK dictWords = []) := by
  refine ⟨rfl, rfl, rfl, rfl, ?_, ?_⟩
  · intro hsess
    show (match runRerank sess v pinyin candidates context with
      | .ok r => r
      | .error _ => candidates) = candidates
    rw [runRerank]
    by_cases h0 : splitPinyinPub pinyin.data = [] ∨ candidates = []
    · rw [if_pos h0]
    · rw [if_neg h0]
      dsimp only
      rw [hsess]
  · intro hsess hlen
    show (match runPredict sess v dict isWord pinyin topK context dictWords with
      | .ok c => c
      | .error _ => []) = []
    rw [runPredict]
    have hne : ¬ splitPinyinPub pinyin.data = [] := by
      intro hcon
      rw [hcon] at hlen
      simp at hlen
    rw [if_neg hne, if_pos hlen]
    dsimp only
    rw [hsess]

/-- Witness for C6 at concrete inputs: an unavailable predictor, and a
ready predictor whose session always fails, on the single syllable
"shi". -/
theorem claim_C6_witness :
    ((AIPredictor.mk (.unavailable "no model") none false).rerank "shi"
      ["是", "时"] [] = ["是", "时"]) ∧
    ((AIPredictor.mk (.ready (fun _ => .error "boom")) (some vC6) true).rerank
      "shi" ["是", "时"] [] = ["是", "时"]) ∧
    ((AIPredictor.mk (.ready (fun _ => .error "boom")) (some vC6) true).predict
      none (fun _ => false) "shi" [] 9 [] = []) := by
  have h := claim_C6_failure_policy "no model" none false
    (fun _ => .error "boom") vC6 none (fun _ => false) "shi" [] 9 []
    ["是", "时"] "boom"
  exact ⟨h.1, h.2.2.2.2.1 rfl, h.2.2.2.2.2 rfl (by decide)⟩

-- ------------------------------------------------------------
-- C7: the rerank scoring law, stated from the spec's words
-- ------------------------------------------------------------

/-- Spec: the weight table — (AI weight, dict weight) is (50,50) for no
context, (60,40) for 1-2 characters, (70,30) for 3-4, (80,20) from 5. -/
def specWeights (c : Nat) : Rat × Rat :=
  if c = 0 then (50, 50)
  else if 1 ≤ c ∧ c ≤ 2 then (60, 40)
  else if 3 ≤ c ∧ c ≤ 4 then (70, 30)
  else (80, 20)

/-- Spec: minimum of the candidate scores (the candidate set is non-empty
where this is used). -/
def listMin : List Rat → Rat
  | [] => 0
  | [x] => x
  | x :: y :: t => min x (listMin (y :: t))

def listMax : List Rat → Rat
  | [] => 0
  | [x] => x
  | x :: y :: t => max x (listMax (y :: t))

/-- Spec: the length bonus — 20 when the character count equals the
syllable count and is at least 2, else 5 when they are equal, else 0. -/
def specLenBonus (charCount sylCount : Nat) : Rat :=
  if charCount = sylCount ∧ 2 ≤ charCount then 20
  else if charCount = sylCount then 5
  else 0

/-- Spec: every candidate at rank `rank` receives
dict_norm·dict_w + ai_norm·ai_w + length_bonus (weights in percent), with
dict_norm = 100 − rank·100/N and ai_norm the candidate's first-character
model score min-max normalized over the candidate set, the range clamped
to at least 0.1. -/
def rerankSpecScored (sylCount c : Nat) (candidates : List String)
    (aiScores : List Rat) : List (Nat × Rat) :=
  let w := specWeights c
  let lo := listMin aiScores
  let range := max (listMax aiScores - lo) (1 / 10)
  (candidates.zip aiScores).enum.map
    (fun (p : Nat × (String × Rat)) =>
      ((p.1,
        (100 - (p.1 : Rat) * (100 / (candidates.length : Rat))) * (w.2 / 100)
          + ((p.2.2 - lo) / range * 100) * (w.1 / 100)
          + specLenBonus p.2.1.data.length sylCount) : Nat × Rat))

/-- Spec: the output is the candidate list reordered by this score
descending. -/
def rerankSpec (sylCount c : Nat) (candidates : List String)
    (aiScores : List Rat) : List String :=
  ((sortDescBy (fun (x : Nat × Rat) => x.2)
      (rerankSpecScored sylCount c candidates aiScores)).filterMap
    (fun x => candidates.get? x.1))

theorem specWeights_eq (c : Nat) :
    specWeights c = (aiWeightOf c, 100 - aiWeightOf c) := by
  rw [specWeights, aiWeightOf]
  by_cases h0 : c = 0
  · rw [if_pos h0, if_pos h0]
    norm_num
  · rw [if_neg h0, if_neg h0]
    by_cases h2 : c ≤ 2
    · rw [if_pos (by omega : 1 ≤ c ∧ c ≤ 2), if_pos h2]
      norm_num
    · rw [if_neg (by omega : ¬ (1 ≤ c ∧ c ≤ 2)), if_neg h2]
      by_cases h4 : c ≤ 4
      · rw [if_pos (by omega : 3 ≤ c ∧ c ≤ 4), if_pos h4]
        norm_num
      · rw [if_neg (by omega : ¬ (3 ≤ c ∧ c ≤ 4)), if_neg h4]
        norm_num

theorem foldl_min_eq_listMin (h : Rat) (t : List Rat) :
    t.foldl min h = listMin (h :: t) := by
  induction t generalizing h with
  | nil => rfl
  | cons x t ih =>
    rw [List.foldl_cons, ih (min h x)]
    cases t with
    | nil => rfl
    | cons y t2 =>
      show listMin (min h x :: y :: t2) = min h (listMin (x :: y :: t2))
      rw [listMin, listMin]
      exact min_assoc h x (listMin (y :: t2))

theorem foldl_max_eq_listMax (h : Rat) (t : List Rat) :
    t.foldl max h = listMax (h :: t) := by
  induction t generalizing h with
  | nil => rfl
  | cons x t ih =>
    rw [List.foldl_cons, ih (max h x)]
    cases t with
    | nil => rfl
    | cons y t2 =>
      show listMax (max h x :: y :: t2) = max h (listMax (x :: y :: t2))
      rw [listMax, listMax]
      exact max_assoc h x (listMax (y :: t2))

/-- C7: for a non-empty candidate list and non-empty syllable split, when
the single inference call succeeds, `run_rerank` returns exactly the
spec's scoring law — dict_norm·dict_w + ai_norm·ai_w + length_bonus with
the (50,50)/(60,40)/(70,30)/(80,20) weight table over the effective
context length, min-max normalized first-character scores with the range
clamped to ≥ 0.1 — sorted by score descending (stably).  The context
length c is the number of context characters that survive `build_context`
(last 50, in-vocabulary), and f32 arithmetic is modelled exactly over ℚ. -/
theorem claim_C7_rerank_formula (sess : Sess) (v : VocabIndex)
    (pinyin : String) (candidates : List String) (context : List Char)
    (logits : List Rat)
    (hsyl : splitPinyinPub pinyin.data ≠ [])
    (hcand : candidates ≠ [])
    (hsess : sess (buildContext v context) = .ok logits) :
    runRerank sess v pinyin candidates context
      = .ok (rerankSpec (splitPinyinPub pinyin.data).length
          ((buildContext v context).length - 1) candidates
          (aiScoresOf v logits
            (((buildContext v context).length - 1) * 21128) candidates)) ∧
    (sortDescBy (fun (x : Nat × Rat) => x.2)
        (rerankSpecScored (splitPinyinPub pinyin.data).length
          ((buildContext v context).length - 1) candidates
          (aiScoresOf v logits
            (((buildContext v context).length - 1) * 21128) candidates))).Pairwise
      (fun a b => b.2 ≤ a.2) := by
  refine ⟨?_, sortDescBy_pairwise _ _⟩
  rw [runRerank, if_neg (by tauto)]
  dsimp only
  rw [hsess, rerankSpec, rerankSpecScored]
  refine congrArg (fun L => Except.ok
    (List.filterMap (fun (x : Nat × Rat) => candidates.get? x.1)
      (sortDescBy (fun (x : Nat × Rat) => x.2) L))) ?_
  apply List.map_congr_left
  intro p _
  have hw := specWeights_eq ((buildContext v context).length - 1)
  obtain ⟨a, t, hat⟩ : ∃ a t, aiScoresOf v logits
      (((buildContext v context).length - 1) * 21128) candidates = a :: t := by
    cases hsc : aiScoresOf v logits
        (((buildContext v context).length - 1) * 21128) candidates with
    | nil =>
      exfalso
      apply hcand
      have := congrArg List.length hsc
      rw [aiScoresOf, List.length_map] at this
      exact List.length_eq_zero.mp (by simpa using this)
    | cons a t => exact ⟨a, t, rfl⟩
  rw [hat, hw]
  dsimp only
  rw [foldl_min_eq_listMin, foldl_max_eq_listMax]
  have hmax : max candidates.length 1 = candidates.length := by
    have : candidates.length ≠ 0 := fun hc => hcand (List.length_eq_zero.mp hc)
    omega
  rw [hmax]
  rw [mul_div_assoc, mul_div_assoc, specLenBonus]

/-- Witness for C7: a ready session returning a concrete logits vector,
two candidates, empty context. -/
theorem claim_C7_witness :
    (splitPinyinPub "ni".data ≠ [] ∧ (["尼", "你"] : List String) ≠ []) ∧
    runRerank (fun _ => .ok [1, 2, 3, 4, 5, 6, 7, 8])
        { pinyin2charIds := [], char2id := [("你", 5), ("好", 7), ("尼", 3)],
          id2char := [], clsId := 101 }
        "ni" ["尼", "你"] []
      = .ok (rerankSpec (splitPinyinPub "ni".data).length 0 ["尼", "你"]
          (aiScoresOf
            { pinyin2charIds := [], char2id := [("你", 5), ("好", 7), ("尼", 3)],
              id2char := [], clsId := 101 }
            [1, 2, 3, 4, 5, 6, 7, 8] 0 ["尼", "你"])) := by
  refine ⟨⟨by decide, by decide⟩, ?_⟩
  exact (claim_C7_rerank_formula (fun _ => .ok [1, 2, 3, 4, 5, 6, 7, 8])
    { pinyin2charIds := [], char2id := [("你", 5), ("好", 7), ("尼", 3)],
      id2char := [], clsId := 101 }
    "ni" ["尼", "你"] [] [1, 2, 3, 4, 5, 6, 7, 8]
    (by decide) (by decide) rfl).1

-- ------------------------------------------------------------
-- C8: word-graph choice table
-- ------------------------------------------------------------

/-- The per-window choice description: the top-5 dictionary entries by
weight for the window of length L starting at i, scored with the
dictionary weight plus the jieba boost (quartered for single-syllable
windows). -/
def choicesSpecAt (d : Dictionary) (isWord : String → Bool)
    (syllables : List (List Char)) (i L : Nat) : List GraphChoice :=
  if L = 1 then
    ((sortDescBy (fun c => c.weight)
        (d.lookup (String.mk (syllables.getD i [])))).take 5).map (fun e =>
      { endPos := i + 1, word := e.word,
        score := (e.weight : Int) + jiebaWordScore isWord e.word / 4,
        sylCount := 1 })
  else
    ((sortDescBy (fun c => c.weight)
        (d.lookup (String.mk ((syllables.drop i).take L).flatten))).take 5).map
      (fun e =>
        { endPos := i + L, word := e.word,
          score := (e.weight : Int) + jiebaWordScore isWord e.word,
          sylCount := L })

/-- Dictionary and jieba predicate for the C8 counterexample and witness:
four entries under the key a, and 你好 under nihao with jieba recognising
你好. -/
def dC8 : Dictionary :=
  Dictionary.fromText "a,一,100\na,二,90\na,三,80\na,四,70\nnihao,你好,10\n".data

def iwC8 : String → Bool := fun w => w = "你好"

/-- C8 counterexample: the DP keeps the top-5 (not top-3) dictionary words
per length — four single-syllable choices survive at position 0 of ["a"]
— and a kept choice's score is weight + jieba boost (你好: 10 + 2·750 =
1510), not the raw weight 10; its DP score is 1510 + 2·1000 = 3510, not
weight + L·1000 = 2010. -/
theorem claim_C8_counterexample :
    (((buildWordAt dC8 iwC8 [['a']]).headD []).filter
        (fun c => c.sylCount = 1)).length = 4 ∧
    ((buildWordAt dC8 iwC8 ["ni".data, "hao".data]).headD []).map
        GraphChoice.score = [1510] ∧
    dpEffectiveScore
        { endPos := 2, word := "你好", score := 1510, sylCount := 2 } = 3510 ∧
    (1510 : Int) ≠ 10 ∧ (3510 : Int) ≠ 10 + 2 * 1000 := by
  refine ⟨by decide, by decide, by decide, by decide, by decide⟩

/-- C8 (amended): in the word-graph DP, for every starting position the
choice table is, per window length L (single syllables and multi-syllable
windows of length 2..min(6, remaining)), the top-5 dictionary words by
weight, each scored with the dictionary weight plus the jieba word boost
(quartered for single-syllable windows, 0 for single-character words);
the DP then scores a choice by adding sylCount·1000 for multi-syllable
choices and the raw choice score otherwise. -/
theorem claim_C8_word_graph_choices (d : Dictionary) (isWord : String → Bool)
    (syllables : List (List Char)) :
    (∀ i, i < syllables.length →
      (buildWordAt d isWord syllables).getD i []
        = (List.range' 2 (min 6 (syllables.length - i) - 1)).flatMap
            (choicesSpecAt d isWord syllables i)
          ++ choicesSpecAt d isWord syllables i 1) ∧
    (∀ i L, (choicesSpecAt d isWord syllables i L).length ≤ 5) ∧
    (∀ ch : GraphChoice, dpEffectiveScore ch
      = ch.score + (if 2 ≤ ch.sylCount then (ch.sylCount : Int) * 1000 else 0)) := by
  refine ⟨?_, ?_, ?_⟩
  · intro i hi
    rw [buildWordAt]
    rw [List.getD_eq_getElem?_getD, List.getElem?_map, List.getElem?_range hi]
    simp only [Option.map_some', Option.getD_some]
    congr 1
    · apply List.flatMap_congr
      intro L hL
      have hL2 : L ≠ 1 := by
        rcases List.mem_range'.mp hL with ⟨k, hk, rfl⟩
        omega
      rw [choicesSpecAt, if_neg hL2]
      by_cases hemp : d.lookup (String.mk ((syllables.drop i).take L).flatten) = []
      · rw [if_pos hemp, hemp]
        rfl
      · rw [if_neg hemp]
    · rw [choicesSpecAt, if_pos rfl]
      by_cases hemp : d.lookup (String.mk (syllables.getD i [])) = []
      · rw [if_pos hemp, hemp]
        rfl
      · rw [if_neg hemp]
  · intro i L
    rw [choicesSpecAt]
    by_cases hL : L = 1
    · rw [if_pos hL, List.length_map]
      exact le_trans (List.length_take_le 5 _) le_rfl
    · rw [if_neg hL, List.length_map]
      exact le_trans (List.length_take_le 5 _) le_rfl
  · intro ch
    rw [dpEffectiveScore]
    by_cases h2 : 2 ≤ ch.sylCount
    · rw [if_pos h2, if_pos h2]
    · rw [if_neg h2, if_neg h2]
      omega

/-- Witness for C8, applying the choice-table characterization at the
concrete dictionary of the counterexample and position 0. -/
theorem claim_C8_witness :
    (0 < ([["n", "i"], ["h", "a", "o"]].map (fun s => s.flatMap String.data)).length) ∧
    (buildWordAt dC8 iwC8 ["ni".data, "hao".data]).getD 0 []
      = (List.range' 2 (min 6 (2 - 0) - 1)).flatMap
          (choicesSpecAt dC8 iwC8 ["ni".data, "hao".data] 0)
        ++ choicesSpecAt dC8 iwC8 ["ni".data, "hao".data] 0 1 := by
  refine ⟨by decide, ?_⟩
  exact (claim_C8_word_graph_choices dC8 iwC8 ["ni".data, "hao".data]).1 0
    (by decide)

end AiPinyin
